import Mathlib

/-!
# Verification of the `hyperloglog` crate (finnbear/hyperloglog)

A shallow embedding of `src/lib.rs` into Lean 4, together with theorems
settling the specification claims.

Conventions:
* A register store (`[u8; M]` in Rust, `M = 2^P`) is a `List Nat` of length
  `2 ^ P` whose entries are the byte values of the registers.
* 64-bit hash values are `Nat`s below `2 ^ 64`; the hashing primitive itself
  (SipHash 1-3) is out of scope per the spec, so insertion is modelled at the
  level of the 64-bit hash value `x` that the hasher produced.
* The `arcode` arithmetic coder and the `base64` codec are external crates
  whose sources are not part of this repository; they are modelled from the
  spec (see the `Modelled from the spec:` doc comments below).
-/

namespace HLL

/-! ## Core register-store operations, translated from `src/lib.rs` -/

/-- Helper for `bit_length`: the number of binary digits of `x`, computed by
repeated halving with enough fuel.  For `x < 2 ^ fuel` this is `Nat.size x`
(`Nat.size` itself does not reduce inside the kernel, so this executable form
is used instead; see `bit_length_eq_size`). -/
def blAux : Nat → Nat → Nat
  | 0, _ => 0
  | fuel + 1, x => if x = 0 then 0 else blAux fuel (x / 2) + 1

/-- Source `fn bit_length(x: u64) -> u8 { (64 - x.leading_zeros()) as u8 }`:
for `x < 2^64` this is the bit length of `x`. -/
def bit_length (x : Nat) : Nat :=
  blAux 64 x

/-- Source `fn get_rho(w: u64, max_width: u8) -> u8 { max_width - bit_length(w) + 1 }`.
The Rust `u8` subtraction cannot wrap because callers pass `w < 2^max_width`;
`Nat` truncated subtraction agrees with it on that domain. -/
def get_rho (w : Nat) (max_width : Nat) : Nat :=
  max_width - bit_length w + 1

/-- Source `fn compression_symbols(precision: u8) -> u32 { 64 + 1 - precision as u32 }` -/
def compression_symbols (precision : Nat) : Nat :=
  64 + 1 - precision

/-- Source `const COMPRESSION_PRECISION: u64 = 48;` -/
def COMPRESSION_PRECISION : Nat := 48

/-- The body of `Registers::insert` after hashing: from the 64-bit hash `x`,
`j = x as usize & (REGISTERS - 1)`, `w = x >> PRECISION`,
`rho = get_rho(w, 64 - PRECISION)`, and `registers[j] = rho` if
`rho > registers[j]`. -/
def insertHash (P : Nat) (x : Nat) (regs : List Nat) : List Nat :=
  let j := x &&& (2 ^ P - 1)
  let w := x >>> P
  let rho := get_rho w (64 - P)
  if rho > regs.getD j 0 then regs.set j rho else regs

/-- Source `Registers::merge`: `*mir = (*mir).max(src_registers[i])` for every index
of `self`; both stores have the same length `M = 2^P` by the type. -/
def mergeRegs (dst src : List Nat) : List Nat :=
  List.zipWith max dst src

/-- Source `Registers::clear`: `self.registers_mut().fill(0)`. -/
def clearRegs (regs : List Nat) : List Nat :=
  List.replicate regs.length 0

/-- Source `R::zero()` for `[u8; M]`: the all-zero store. -/
def zeroRegs (P : Nat) : List Nat :=
  List.replicate (2 ^ P) 0

/-- Folding `insert` over a stream of hash values, starting from a store. -/
def insertAllFrom (P : Nat) (s : List Nat) (xs : List Nat) : List Nat :=
  xs.foldl (fun t x => insertHash P x t) s

/-- The store obtained by inserting a stream of hash values into a fresh
(zero) store. -/
def insertAll (P : Nat) (xs : List Nat) : List Nat :=
  insertAllFrom P (zeroRegs P) xs

/-! ## Bit-level I/O (`arcode::bitbit::{BitReader, BitWriter, MSB}`)

Modelled from the spec: the bit reader/writer come from the external `arcode`
crate, which is not part of this repository's sources.  The spec fixes their
contract: the writer packs bits most-significant-bit first and
`pad_to_byte` pads the output with zero bits to a whole number of bytes; the
reader yields the bits of the input bytes MSB first and fails (it does not
default-fill) once the input is exhausted. -/

/-- The eight bits of a byte, most significant first. -/
def byteToBits (b : Nat) : List Bool :=
  [b.testBit 7, b.testBit 6, b.testBit 5, b.testBit 4,
   b.testBit 3, b.testBit 2, b.testBit 1, b.testBit 0]

/-- All bits of a byte sequence, MSB first within each byte. -/
def bytesToBits (data : List Nat) : List Bool :=
  data.flatMap byteToBits

/-- One byte from eight MSB-first bits. -/
def bitsToByte (bs : List Bool) : Nat :=
  bs.foldl (fun acc b => 2 * acc + cond b 1 0) 0

/-- Pack a bit sequence into bytes, MSB first, padding the final partial
byte with zero bits (`BitWriter::pad_to_byte`). -/
def bitsToBytes : List Bool → List Nat
  | [] => []
  | b1 :: b2 :: b3 :: b4 :: b5 :: b6 :: b7 :: b8 :: rest =>
    bitsToByte [b1, b2, b3, b4, b5, b6, b7, b8] :: bitsToBytes rest
  | bs => [bitsToByte (bs ++ List.replicate (8 - bs.length) false)]

/-! ## The adaptive arithmetic coder (`arcode` crate)

Modelled from the spec: the `arcode` arithmetic coder
(`Model`, `ArithmeticEncoder`, `ArithmeticDecoder`) is an external crate, not
part of this repository's sources.  §4.4 of the spec fixes the algorithm: an
adaptive order-0 frequency model over `65 - P` symbols starting uniform, whose
observed symbol's frequency is incremented after each encode/decode; a
finite-precision (48-bit) range coder; no end-of-stream symbol
(`EOFKind::None`); the encoder flushes its pending state and pads to a whole
byte; the decoder decodes exactly `M` symbols and hard-fails when it runs out
of input bits.  The frequency-rescaling-on-overflow step of the adaptive model
is omitted: with at most `2^11` updates on top of unit initial frequencies the
total count never approaches an overflow threshold, so the step can never
trigger for this crate's register counts.  The renormalisation loops are given
fuel `64`: one renormalisation step doubles the width of the coder interval,
which is bounded by `2^48`, so the loop always stops within 64 rounds. -/

/-- Total of the interval `[0, 2^48)` used by the 48-bit coder. -/
def WHOLE : Nat := 2 ^ 48

/-- Midpoint of the coder interval. -/
def HALF : Nat := 2 ^ 47

/-- First quartile of the coder interval. -/
def QUART : Nat := 2 ^ 46

/-- The adaptive model's initial state: every one of the `n` symbols has
frequency 1. -/
def initModel (n : Nat) : List Nat :=
  List.replicate n 1

/-- Source `Model::update_symbol`: increment the observed symbol's frequency.
An index outside the alphabet leaves the frequencies unchanged. -/
def updateModel (freqs : List Nat) (sym : Nat) : List Nat :=
  freqs.set sym (freqs.getD sym 0 + 1)

/-- Cumulative frequency of the symbols before `sym`. -/
def cumFreq (freqs : List Nat) (sym : Nat) : Nat :=
  (freqs.take sym).sum

/-- Encoder state: current interval `[low, high]`, count of pending
(carry-deferred) bits, and the bits emitted so far. -/
structure EncSt where
  low : Nat
  high : Nat
  pending : Nat
  out : List Bool
deriving Repr, DecidableEq

/-- Emit one bit followed by the pending opposite bits. -/
def emitBit (st : EncSt) (b : Bool) : EncSt :=
  { st with
    pending := 0
    out := st.out ++ b :: List.replicate st.pending (!b) }

/-- The encoder's renormalisation loop: emit leading bits (or defer them when
the interval straddles the midpoint) until the interval is wide again. -/
def renormE (fuel : Nat) (st : EncSt) : EncSt :=
  match fuel with
  | 0 => st
  | fuel + 1 =>
    if st.high < HALF then
      renormE fuel { emitBit st false with
        low := 2 * st.low, high := 2 * st.high + 1 }
    else if HALF ≤ st.low then
      renormE fuel { emitBit st true with
        low := 2 * (st.low - HALF), high := 2 * (st.high - HALF) + 1 }
    else if QUART ≤ st.low ∧ st.high < 3 * QUART then
      renormE fuel { st with
        pending := st.pending + 1
        low := 2 * (st.low - QUART), high := 2 * (st.high - QUART) + 1 }
    else
      st

/-- Source `ArithmeticEncoder::encode`: narrow the interval to the symbol's
sub-interval and renormalise. -/
def encodeSym (freqs : List Nat) (sym : Nat) (st : EncSt) : EncSt :=
  let total := freqs.sum
  let range := st.high - st.low + 1
  let cumLo := cumFreq freqs sym
  let cumHi := cumFreq freqs (sym + 1)
  renormE 64 { st with
    low := st.low + range * cumLo / total
    high := st.low + range * cumHi / total - 1 }

/-- Source `ArithmeticEncoder::finish_encode` followed by `pad_to_byte`: resolve the
pending bits by identifying the quarter the final interval contains, then pad
with enough zero bits that the decoder's 48-bit window never outruns the
stream. -/
def finishEncode (st : EncSt) : List Bool :=
  let st' := emitBit { st with pending := st.pending + 1 } (QUART ≤ st.low)
  st'.out ++ List.replicate 47 false

/-- The encoding loop of `Registers::compress`: each register value is
encoded clamped to the alphabet (`sym.min(64 - PRECISION)`), but the model is
updated with the unclamped value (`model.update_symbol(sym as u32)`), exactly
as in the source. -/
def compressLoop (P : Nat) : List Nat → List Nat → EncSt → List Nat × EncSt
  | freqs, [], st => (freqs, st)
  | freqs, sym :: rest, st =>
    compressLoop P (updateModel freqs sym)
      rest (encodeSym freqs (min sym (64 - P)) st)

/-- Source `Registers::compress`: encode all registers with the adaptive coder,
finish, pad to a byte and return the bytes. -/
def compress (P : Nat) (regs : List Nat) : List Nat :=
  let st0 : EncSt := { low := 0, high := WHOLE - 1, pending := 0, out := [] }
  let (_, st) := compressLoop P (initModel (compression_symbols P)) regs st0
  bitsToBytes (finishEncode st)

/-! ### The decoder

Every decoder function returns its result together with the reader position
it stopped at; a `none` result means the reader ran out of input bits
(the crate's `UnexpectedEndOfInput`, surfaced by `Registers::decompress` as
`Err(())`). -/

/-- Read `n` bits MSB first into an accumulator. -/
def readBitsC (bits : List Bool) : Nat → Nat → Nat → Option Nat × Nat
  | 0, acc, pos => (some acc, pos)
  | n + 1, acc, pos =>
    match bits.get? pos with
    | none => (none, pos)
    | some b => readBitsC bits n (2 * acc + cond b 1 0) (pos + 1)

/-- The decoder's renormalisation loop, mirroring `renormE` on the interval
and additionally shifting the 48-bit window `value`, pulling in one input bit
per shift. -/
def renormD (bits : List Bool) :
    Nat → Nat → Nat → Nat → Nat → Option (Nat × Nat × Nat) × Nat
  | 0, low, high, value, pos => (some (low, high, value), pos)
  | fuel + 1, low, high, value, pos =>
    if high < HALF then
      match bits.get? pos with
      | none => (none, pos)
      | some b =>
        renormD bits fuel (2 * low) (2 * high + 1)
          (2 * value + cond b 1 0) (pos + 1)
    else if HALF ≤ low then
      match bits.get? pos with
      | none => (none, pos)
      | some b =>
        renormD bits fuel (2 * (low - HALF)) (2 * (high - HALF) + 1)
          (2 * (value - HALF) + cond b 1 0) (pos + 1)
    else if QUART ≤ low ∧ high < 3 * QUART then
      match bits.get? pos with
      | none => (none, pos)
      | some b =>
        renormD bits fuel (2 * (low - QUART)) (2 * (high - QUART) + 1)
          (2 * (value - QUART) + cond b 1 0) (pos + 1)
    else
      (some (low, high, value), pos)

/-- Locate the symbol whose cumulative-frequency interval contains `scaled`:
the first `s` with `scaled < cumFreq freqs (s+1)`. -/
def findSym : List Nat → Nat → Nat
  | [], _ => 0
  | f :: rest, scaled =>
    if scaled < f then 0 else findSym rest (scaled - f) + 1

/-- Source `ArithmeticDecoder::decode`: recover the symbol from the window, narrow
the interval as the encoder did, and renormalise. -/
def decodeSymC (bits : List Bool) (freqs : List Nat)
    (low high value pos : Nat) : Option (Nat × Nat × Nat × Nat) × Nat :=
  let total := freqs.sum
  let range := high - low + 1
  let scaled := ((value - low + 1) * total - 1) / range
  let sym := findSym freqs scaled
  let low2 := low + range * cumFreq freqs sym / total
  let high2 := low + range * cumFreq freqs (sym + 1) / total - 1
  match renormD bits 64 low2 high2 value pos with
  | (none, p) => (none, p)
  | (some (l, h, v), p) => (some (sym, l, h, v), p)

/-- The register loop of `Registers::decompress`: registers are overwritten
in order with the decoded symbols (`*decompressed = sym as u8`); when the
decoder fails, the registers not yet reached keep their previous values and
`Err` is returned. -/
def decLoop (bits : List Bool) :
    List Nat → Nat → Nat → Nat → Nat → List Nat → List Nat →
      (Option Unit × List Nat) × Nat
  | _, _, _, _, pos, [], acc => ((some (), acc.reverse), pos)
  | freqs, low, high, value, pos, r :: rest, acc =>
    match decodeSymC bits freqs low high value pos with
    | (none, p) => ((none, acc.reverse ++ r :: rest), p)
    | (some (sym, l, h, v), p) =>
      decLoop bits (updateModel freqs sym) l h v p rest (sym % 256 :: acc)

/-- Source `Registers::decompress`: build the fresh model, fill the decoder's 48-bit
window, then decode one symbol per register.  Returns the `Result`, the
resulting register store (the Rust method mutates `self` in place) and the
number of input bits consumed. -/
def decompress (P : Nat) (regs : List Nat) (data : List Nat) :
    (Option Unit × List Nat) × Nat :=
  let bits := bytesToBits data
  match readBitsC bits 48 0 0 with
  | (none, p) => ((none, regs), p)
  | (some v, p) =>
    decLoop bits (initModel (compression_symbols P)) 0 (WHOLE - 1) v p regs []

/-! ## Base64 (`base64` crate, `BASE64_STANDARD_NO_PAD`)

Modelled from the spec: the `base64` crate is external to this repository.
The spec fixes the format: the compressed bytes are encoded with the standard
base64 alphabet without padding characters; decoding rejects malformed input
as a distinct error (modelled as `none`). -/

/-- The standard base64 alphabet. -/
def b64Alphabet : List Char :=
  "ABCDEFGHIJKLMNOPQRSTUVWXYZabcdefghijklmnopqrstuvwxyz0123456789+/".toList

/-- The character for a six-bit group. -/
def b64Char (i : Nat) : Char :=
  b64Alphabet.getD i 'A'

/-- The six-bit value of an alphabet character (`none` when the character is
not in the alphabet). -/
def b64Index (c : Char) : Option Nat :=
  List.indexOf? c b64Alphabet

/-- Padding-free standard base64 encoding: three bytes become four
characters; a final group of one or two bytes becomes two or three
characters. -/
def b64Encode : List Nat → List Char
  | [] => []
  | [a] => [b64Char (a / 4), b64Char (a % 4 * 16)]
  | [a, b] =>
    [b64Char (a / 4), b64Char (a % 4 * 16 + b / 16), b64Char (b % 16 * 4)]
  | a :: b :: c :: rest =>
    b64Char (a / 4) :: b64Char (a % 4 * 16 + b / 16) ::
      b64Char (b % 16 * 4 + c / 64) :: b64Char (c % 64) :: b64Encode rest

/-- Padding-free standard base64 decoding; rejects characters outside the
alphabet, a trailing group of one character, and nonzero trailing bits. -/
def b64Decode : List Char → Option (List Nat)
  | [] => some []
  | [_] => none
  | [c1, c2] =>
    match b64Index c1, b64Index c2 with
    | some s1, some s2 =>
      if s2 % 16 = 0 then some [s1 * 4 + s2 / 16] else none
    | _, _ => none
  | [c1, c2, c3] =>
    match b64Index c1, b64Index c2, b64Index c3 with
    | some s1, some s2, some s3 =>
      if s3 % 4 = 0 then some [s1 * 4 + s2 / 16, s2 % 16 * 16 + s3 / 4]
      else none
    | _, _, _ => none
  | c1 :: c2 :: c3 :: c4 :: rest =>
    match b64Index c1, b64Index c2, b64Index c3, b64Index c4 with
    | some s1, some s2, some s3, some s4 =>
      match b64Decode rest with
      | some bytes =>
        some ((s1 * 4 + s2 / 16) :: (s2 % 16 * 16 + s3 / 4) ::
          (s3 % 4 * 64 + s4) :: bytes)
      | none => none
    | _, _, _, _ => none

/-! ## The serde envelope (`Serialize`/`Deserialize` for `HyperLogLog<R>`),
translated from `src/lib.rs`. -/

/-- Human-readable serialization: the compressed bytes encoded as
padding-free standard base64 (`BASE64_STANDARD_NO_PAD.encode_string`). -/
def serializeText (P : Nat) (regs : List Nat) : List Char :=
  b64Encode (compress P regs)

/-- Binary serialization: the compressed bytes, unadorned
(`serializer.serialize_bytes(&compressed)`). -/
def serializeBin (P : Nat) (regs : List Nat) : List Nat :=
  compress P regs

/-- The visitor body shared by both deserialize shapes: decompress into a
fresh `HyperLogLog::default()` (all-zero) store, failing when the codec
fails. -/
def deserializeBytes (P : Nat) (bytes : List Nat) : Option (List Nat) :=
  match decompress P (zeroRegs P) bytes with
  | ((some _, regs), _) => some regs
  | ((none, _), _) => none

/-- Source `visit_str`: base64-decode, then decompress; each failure is an error. -/
def deserializeText (P : Nat) (s : List Char) : Option (List Nat) :=
  match b64Decode s with
  | none => none
  | some bytes => deserializeBytes P bytes

/-! ## Reachable register stores

A store is reachable when a sequence of the public operations produces it
from the fresh (all-zero) store: insertion of a hashed value, merge with
another reachable store, clear, and successful decompression. -/

inductive Reachable (P : Nat) : List Nat → Prop
  | zero : Reachable P (zeroRegs P)
  | insert (x : Nat) {s : List Nat} : Reachable P s →
      Reachable P (insertHash P x s)
  | merge {s t : List Nat} : Reachable P s → Reachable P t →
      Reachable P (mergeRegs s t)
  | clear {s : List Nat} : Reachable P s → Reachable P (clearRegs s)
  | decomp {s : List Nat} (data : List Nat) : Reachable P s →
      ((decompress P s data).1.1 = some ()) →
      Reachable P ((decompress P s data).1.2)

/-! ## The estimator (`Registers::estimate`), translated from `src/lib.rs`

The Rust estimator computes in `f64`; it is modelled over `ℝ`.  The threshold
table and the bias-correction tables live in `src/weights.rs`, which is not
part of the provided sources (`mod weights` has no body here); following the
spec, which treats them as external constant data, the threshold and the bias
correction are parameters of the model. -/

/-- Source `fn get_alpha(p: u8) -> f64` (the `assert!(p >= 4 && p <= 18)` is a
precondition carried by the theorems that use this). -/
noncomputable def get_alpha (p : Nat) : ℝ :=
  match p with
  | 4 => 0.673
  | 5 => 0.697
  | 6 => 0.709
  | _ => 0.7213 / (1 + 1.079 / ((2 : ℝ) ^ p))

/-- Source `Registers::estimate`, with `threshold = get_threshold(PRECISION)` and
`bias e = estimate_bias(e, PRECISION)` supplied as parameters (their tables
are in the absent `weights.rs`). -/
noncomputable def estimateReal (P : Nat) (threshold : ℝ) (bias : ℝ → ℝ)
    (regs : List Nat) : ℝ :=
  let Z := regs.count 0
  let M : ℝ := (2 : ℝ) ^ P
  let lin := M * Real.log (M / (Z : ℝ))
  if 0 < Z ∧ lin ≤ threshold then lin
  else
    let sum : ℝ := (regs.map (fun x => (2 : ℝ) ^ (-(x : ℤ)))).sum
    let est := get_alpha P * ((2 : ℝ) ^ P) ^ 2 / sum
    if est ≤ 5 * (regs.length : ℝ) then est - bias est else est

/-- Source `HyperLogLog::estimate`: `self.0.estimate().round() as u64`. -/
noncomputable def estimatePub (P : Nat) (threshold : ℝ) (bias : ℝ → ℝ)
    (regs : List Nat) : ℤ :=
  round (estimateReal P threshold bias regs)


/-! # Theorems -/

/-! ## Bit length -/

theorem blAux_zero (fuel : Nat) : blAux fuel 0 = 0 := by
  cases fuel <;> simp [blAux]

theorem blAux_lt_pow (fuel x : Nat) (hx : x < 2 ^ fuel) :
    x < 2 ^ blAux fuel x := by
  induction fuel generalizing x with
  | zero =>
    have h0 : x = 0 := by simpa using hx
    subst h0
    simp [blAux]
  | succ fuel ih =>
    by_cases h0 : x = 0
    · simp [h0, blAux]
    · have hdiv : x / 2 < 2 ^ fuel := by
        rw [@Nat.div_lt_iff_lt_mul 2 x (2 ^ fuel) (by norm_num)]
        calc x < 2 ^ (fuel + 1) := hx
        _ = 2 ^ fuel * 2 := by ring
      have := ih (x / 2) hdiv
      have hx2 : x < 2 * (x / 2) + 2 := by omega
      simp only [blAux, h0, if_false]
      calc x < 2 * (x / 2) + 2 := hx2
      _ ≤ 2 * (2 ^ blAux fuel (x / 2) - 1) + 2 := by
            have := ih (x / 2) hdiv
            omega
      _ ≤ 2 ^ (blAux fuel (x / 2) + 1) := by
            have : 1 ≤ 2 ^ blAux fuel (x / 2) := Nat.one_le_two_pow
            rw [pow_succ]
            omega

theorem blAux_pos_le (fuel x : Nat) (h0 : x ≠ 0) (hx : x < 2 ^ fuel) :
    2 ^ (blAux fuel x - 1) ≤ x := by
  induction fuel generalizing x with
  | zero => omega
  | succ fuel ih =>
    simp only [blAux, h0, if_false]
    by_cases hd : x / 2 = 0
    · simp [hd, blAux_zero]
      omega
    · have hdiv : x / 2 < 2 ^ fuel := by
        rw [@Nat.div_lt_iff_lt_mul 2 x (2 ^ fuel) (by norm_num)]
        calc x < 2 ^ (fuel + 1) := hx
        _ = 2 ^ fuel * 2 := by ring
      have hle := ih (x / 2) hd hdiv
      have hpos : 1 ≤ blAux fuel (x / 2) := by
        rcases Nat.eq_zero_or_pos (blAux fuel (x / 2)) with h | h
        · exfalso
          have := blAux_lt_pow fuel (x / 2) hdiv
          rw [h] at this
          omega
        · exact h
      have : 2 ^ (blAux fuel (x / 2) + 1 - 1) = 2 * 2 ^ (blAux fuel (x / 2) - 1) := by
        rw [Nat.add_sub_cancel]
        calc 2 ^ blAux fuel (x / 2) = 2 ^ (blAux fuel (x / 2) - 1 + 1) := by
              congr 1
              omega
        _ = 2 * 2 ^ (blAux fuel (x / 2) - 1) := by rw [pow_succ]; ring
      rw [this]
      omega

/-- On the `u64` domain the executable `bit_length` is the mathematical bit
length `Nat.size`. -/
theorem bit_length_eq_size (x : Nat) (hx : x < 2 ^ 64) :
    bit_length x = Nat.size x := by
  refine le_antisymm ?_ ?_
  · by_cases h0 : x = 0
    · simp [h0, bit_length, blAux_zero, Nat.size_zero]
    · have h := blAux_pos_le 64 x h0 hx
      have h2 : bit_length x - 1 < Nat.size x := Nat.lt_size.mpr h
      omega
  · exact Nat.size_le.mpr (blAux_lt_pow 64 x hx)

/-! ## Insertion -/

theorem set_getD_self (l : List Nat) (j : Nat) : l.set j (l.getD j 0) = l := by
  induction l generalizing j with
  | nil => rfl
  | cons a l ih =>
    cases j with
    | zero => rfl
    | succ j =>
      simp only [List.getD_cons_succ, List.set_cons_succ, ih]

/-- The insertion update in canonical form: register `j` becomes the max of
its old value and `rho`. -/
theorem insertHash_eq (P x : Nat) (regs : List Nat) :
    insertHash P x regs =
      regs.set (x &&& (2 ^ P - 1))
        (max (regs.getD (x &&& (2 ^ P - 1)) 0) (get_rho (x >>> P) (64 - P))) := by
  by_cases h : regs.getD (x &&& (2 ^ P - 1)) 0 < get_rho (x >>> P) (64 - P)
  · rw [max_eq_right (le_of_lt h)]
    simp only [insertHash]
    rw [if_pos h]
  · rw [max_eq_left (Nat.le_of_not_lt h), set_getD_self]
    simp only [insertHash]
    rw [if_neg h]

theorem getD_le (l : List Nat) (j K : Nat) (h : ∀ v ∈ l, v ≤ K) :
    l.getD j 0 ≤ K := by
  induction l generalizing j with
  | nil => simp
  | cons a l ih =>
    cases j with
    | zero => exact h a (by simp)
    | succ j =>
      simp only [List.getD_cons_succ]
      exact ih j (fun v hv => h v (by simp [hv]))

theorem mem_zipWith_max (a b : List Nat) (v : Nat)
    (hv : v ∈ List.zipWith max a b) : ∃ x ∈ a, ∃ y ∈ b, v = max x y := by
  induction a generalizing b with
  | nil => simp [List.zipWith] at hv
  | cons x a ih =>
    cases b with
    | nil => simp [List.zipWith] at hv
    | cons y b =>
      simp only [List.zipWith, List.mem_cons] at hv
      rcases hv with h | h
      · exact ⟨x, by simp, y, by simp, h⟩
      · rcases ih b h with ⟨x', hx', y', hy', hv'⟩
        exact ⟨x', by simp [hx'], y', by simp [hy'], hv'⟩

/-- C3: for every 64-bit hash `x` with `w = x >> P`, the run length computed
by insertion is `rho = (64 - P) - bit_length(w) + 1` where `bit_length` is the
mathematical bit length (`Nat.size`, so `bit_length(0) = 0`); `rho ≥ 1`
always; `rho = 65 - P` exactly when `w = 0`; and the register receives the
value unclamped — register `j` becomes `max(old, rho)` even at the edge
value. -/
theorem C3_rho_run_length (P x : Nat) (s : List Nat) (hP : 4 ≤ P)
    (hP18 : P ≤ 18) (hx : x < 2 ^ 64) (hs : s.length = 2 ^ P) :
    get_rho (x >>> P) (64 - P) = 64 - P - Nat.size (x >>> P) + 1 ∧
    1 ≤ get_rho (x >>> P) (64 - P) ∧
    (get_rho (x >>> P) (64 - P) = 65 - P ↔ x >>> P = 0) ∧
    (insertHash P x s).get? (x &&& (2 ^ P - 1)) =
      some (max (s.getD (x &&& (2 ^ P - 1)) 0) (get_rho (x >>> P) (64 - P))) := by
  have hw : x >>> P < 2 ^ (64 - P) := by
    rw [Nat.shiftRight_eq_div_pow]
    rw [Nat.div_lt_iff_lt_mul (Nat.two_pow_pos P)]
    calc x < 2 ^ 64 := hx
    _ = 2 ^ (64 - P) * 2 ^ P := by
          rw [← pow_add]
          congr 1
          omega
  have hx64 : x >>> P < 2 ^ 64 :=
    lt_of_lt_of_le hw (Nat.pow_le_pow_right (by norm_num) (by omega))
  have hbl : bit_length (x >>> P) = Nat.size (x >>> P) :=
    bit_length_eq_size _ hx64
  have hsize : Nat.size (x >>> P) ≤ 64 - P := Nat.size_le.mpr hw
  refine ⟨?_, ?_, ?_, ?_⟩
  · rw [get_rho, hbl]
  · rw [get_rho]
    omega
  · rw [get_rho, hbl]
    constructor
    · intro h
      exact Nat.size_eq_zero.mp (by omega)
    · intro h
      rw [h, Nat.size_zero]
      omega
  · rw [insertHash_eq]
    have hj : x &&& (2 ^ P - 1) < s.length := by
      rw [hs]
      have h1 : x &&& (2 ^ P - 1) ≤ 2 ^ P - 1 := Nat.and_le_right
      have h2 : 0 < 2 ^ P := Nat.two_pow_pos P
      omega
    rw [List.get?_eq_getElem?, List.getElem?_set]
    simp [hj]
    rw [hs]
    exact Nat.mod_lt x (Nat.two_pow_pos P)

/-- Witness for C3 at `P = 4`, `x = 0` (the all-zero-upper-bits hash). -/
theorem C3_rho_run_length_witness :
    get_rho (0 >>> 4) (64 - 4) = 64 - 4 - Nat.size (0 >>> 4) + 1 ∧
    1 ≤ get_rho (0 >>> 4) (64 - 4) ∧
    (get_rho (0 >>> 4) (64 - 4) = 65 - 4 ↔ 0 >>> 4 = 0) ∧
    (insertHash 4 0 (zeroRegs 4)).get? (0 &&& (2 ^ 4 - 1)) =
      some (max ((zeroRegs 4).getD (0 &&& (2 ^ 4 - 1)) 0)
        (get_rho (0 >>> 4) (64 - 4))) :=
  C3_rho_run_length 4 0 (zeroRegs 4) (by norm_num) (by norm_num)
    (by norm_num) rfl

/-- C2 counterexample: the claim bounds every reachable register by
`64 - P`, but inserting the hash value `0` into a fresh `P = 4` store writes
`rho = 65 - 4 = 61 > 60` into register 0. -/
theorem C2_register_range_cex :
    Reachable 4 (insertHash 4 0 (zeroRegs 4)) ∧
    ¬ (∀ v ∈ insertHash 4 0 (zeroRegs 4), v ≤ 64 - 4) :=
  ⟨Reachable.insert 0 Reachable.zero, by decide⟩

theorem findSym_le (freqs : List Nat) (scaled : Nat) :
    findSym freqs scaled ≤ freqs.length := by
  induction freqs generalizing scaled with
  | nil => simp [findSym]
  | cons f rest ih =>
    simp only [findSym, List.length_cons]
    split
    · simp
    · exact Nat.succ_le_succ (ih _)

theorem updateModel_length (freqs : List Nat) (sym : Nat) :
    (updateModel freqs sym).length = freqs.length := by
  simp [updateModel]

/-- Every register produced by the decoding loop is bounded by the alphabet
size: decoded symbols are below or equal to `freqs.length` and untouched
registers keep their (bounded) old values. -/
theorem decLoop_bounded (bits : List Bool) (K : Nat) (regs : List Nat) :
    ∀ (freqs : List Nat) (low high value pos : Nat) (acc : List Nat),
      freqs.length = K → (∀ v ∈ regs, v ≤ K) → (∀ v ∈ acc, v ≤ K) →
      ∀ v ∈ (decLoop bits freqs low high value pos regs acc).1.2, v ≤ K := by
  induction regs with
  | nil =>
    intro freqs low high value pos acc hf hr ha v hv
    simp only [decLoop] at hv
    exact ha v (List.mem_reverse.mp hv)
  | cons r rest ih =>
    intro freqs low high value pos acc hf hr ha v hv
    simp only [decLoop] at hv
    rcases hd : decodeSymC bits freqs low high value pos with ⟨o, p⟩
    rcases o with _ | ⟨sym, l, h, w⟩
    · rw [hd] at hv
      simp only [List.mem_append, List.mem_reverse] at hv
      rcases hv with h | h
      · exact ha v h
      · exact hr v h
    · have hsym : sym ≤ K := by
        have : sym = findSym freqs
            (((value - low + 1) * freqs.sum - 1) / (high - low + 1)) := by
          rcases hren : renormD bits 64
              (low + (high - low + 1) * cumFreq freqs
                (findSym freqs (((value - low + 1) * freqs.sum - 1) / (high - low + 1))) / freqs.sum)
              (low + (high - low + 1) * cumFreq freqs
                (findSym freqs (((value - low + 1) * freqs.sum - 1) / (high - low + 1)) + 1) / freqs.sum - 1)
              value pos with ⟨o2, p2⟩
          rcases o2 with _ | ⟨⟨l2, h2, v2⟩⟩
          · rw [decodeSymC, hren] at hd
            simp at hd
          · rw [decodeSymC, hren] at hd
            simp only [Prod.mk.injEq, Option.some.injEq] at hd
            exact (hd.1.1).symm
        rw [this, ← hf]
        exact findSym_le _ _
      rw [hd] at hv
      refine ih (updateModel freqs sym) l h w p (sym % 256 :: acc)
        (by rw [updateModel_length, hf]) (fun u hu => hr u (by simp [hu]))
        ?_ v hv
      intro u hu
      rcases List.mem_cons.mp hu with h | h
      · subst h
        exact le_trans (Nat.mod_le _ _) hsym
      · exact ha u h

/-- C2 amended: after any sequence of insert, merge, clear and successful
decompress operations, every register value lies in `[0, 65 - P]` (the bound
`64 - P` in the claim is exceeded exactly when a hash with `w = 0` is
inserted, which stores `rho = 65 - P`). -/
theorem C2_register_range_amended (P : Nat) (s : List Nat) (hP : P ≤ 64)
    (h : Reachable P s) : ∀ v ∈ s, v ≤ 65 - P := by
  induction h with
  | zero =>
    intro v hv
    rw [zeroRegs] at hv
    rw [List.eq_of_mem_replicate hv]
    exact Nat.zero_le _
  | insert x hprev ih =>
    intro v hv
    rw [insertHash_eq] at hv
    rcases List.mem_or_eq_of_mem_set hv with h | h
    · exact ih v h
    · subst h
      apply max_le
      · exact getD_le _ _ _ ih
      · rw [get_rho]
        omega
  | merge h1 h2 ih1 ih2 =>
    intro v hv
    rcases mem_zipWith_max _ _ _ hv with ⟨a, ha, b, hb, hab⟩
    subst hab
    exact max_le (ih1 a ha) (ih2 b hb)
  | clear hprev ih =>
    intro v hv
    rw [clearRegs] at hv
    rw [List.eq_of_mem_replicate hv]
    exact Nat.zero_le _
  | decomp data hprev hok ih =>
    intro v hv
    rw [decompress] at hv
    rcases hr : readBitsC (bytesToBits data) 48 0 0 with ⟨o, p⟩
    rcases o with _ | w
    · rw [hr] at hv
      exact ih v hv
    · rw [hr] at hv
      refine decLoop_bounded (bytesToBits data) (65 - P) _
        (initModel (compression_symbols P)) 0 (WHOLE - 1) w p []
        ?_ (fun u hu => ih u hu) (by simp) v hv
      rw [initModel, List.length_replicate, compression_symbols]

/-- Witness for the amended C2 at `P = 4`: the register value `61` written by
inserting hash value `0` satisfies the amended bound `65 - 4`. -/
theorem C2_register_range_amended_witness :
    61 ∈ insertHash 4 0 (zeroRegs 4) ∧ 61 ≤ 65 - 4 :=
  ⟨by decide, C2_register_range_amended 4 (insertHash 4 0 (zeroRegs 4))
    (by norm_num) (Reachable.insert 0 Reachable.zero) 61 (by decide)⟩

theorem getD_set_self (l : List Nat) (j a : Nat) (h : j < l.length) :
    (l.set j a).getD j 0 = a := by
  rw [List.getD_eq_getElem?_getD, List.getElem?_set]
  simp [h]

theorem getD_set_ne (l : List Nat) (m n a : Nat) (h : m ≠ n) :
    (l.set m a).getD n 0 = l.getD n 0 := by
  rw [List.getD_eq_getElem?_getD, List.getElem?_set]
  simp [h, List.getD_eq_getElem?_getD]

/-- Two insertions commute: the register store does not depend on the order
of two inserted hash values. -/
theorem insert_comm (P x y : Nat) (s : List Nat) :
    insertHash P x (insertHash P y s) = insertHash P y (insertHash P x s) := by
  rw [insertHash_eq P x, insertHash_eq P y, insertHash_eq P x s,
    insertHash_eq P y]
  set j1 := x &&& (2 ^ P - 1) with hj1
  set j2 := y &&& (2 ^ P - 1) with hj2
  set r1 := get_rho (x >>> P) (64 - P) with hr1
  set r2 := get_rho (y >>> P) (64 - P) with hr2
  by_cases hj : j1 = j2
  · rw [← hj]
    rcases Nat.lt_or_ge j1 s.length with h | h
    · rw [getD_set_self _ _ _ h, getD_set_self _ _ _ h,
        List.set_set, List.set_set]
      congr 1
      rw [max_assoc, max_assoc, max_comm r1 r2]
    · simp only [List.set_eq_of_length_le h]
  · rw [getD_set_ne _ _ _ _ hj, getD_set_ne _ _ _ _ (Ne.symm hj)]
    exact List.set_comm _ _ _ (Ne.symm hj)

/-- Re-inserting the same hash value leaves the store unchanged. -/
theorem insert_idem (P x : Nat) (s : List Nat) :
    insertHash P x (insertHash P x s) = insertHash P x s := by
  rw [insertHash_eq P x s, insertHash_eq]
  set j := x &&& (2 ^ P - 1) with hj
  set r := get_rho (x >>> P) (64 - P) with hr
  rcases Nat.lt_or_ge j s.length with h | h
  · rw [getD_set_self _ _ _ h, List.set_set]
    congr 1
    rw [max_assoc, max_self]
  · simp only [List.set_eq_of_length_le h]

/-- C7: insertion is idempotent (inserting a value twice gives the register
store of inserting it once) and order-independent (inserting any permutation
of a multiset of hashed values into any starting store yields the same final
register store). -/
theorem C7_insert_idem_order_indep :
    (∀ P x s, insertHash P x (insertHash P x s) = insertHash P x s) ∧
    (∀ P (s : List Nat) (l l2 : List Nat), l.Perm l2 →
      insertAllFrom P s l = insertAllFrom P s l2) := by
  refine ⟨insert_idem, ?_⟩
  intro P s l l2 hp
  unfold insertAllFrom
  haveI : RightCommutative (fun (t : List Nat) (x : Nat) => insertHash P x t) :=
    ⟨fun b a1 a2 => insert_comm P a2 a1 b⟩
  exact hp.foldl_eq s

/-- Witness for C7: a concrete permutation at `P = 4`. -/
theorem C7_insert_idem_order_indep_witness :
    insertAllFrom 4 (zeroRegs 4) [5, 99, 5] = insertAllFrom 4 (zeroRegs 4) [5, 5, 99] :=
  C7_insert_idem_order_indep.2 4 (zeroRegs 4) [5, 99, 5] [5, 5, 99] (by decide)

/-! ## Merge algebra -/

theorem zip_max_set (s : List Nat) :
    ∀ (t : List Nat) (j r : Nat),
      List.zipWith max s (t.set j (max (t.getD j 0) r)) =
        (List.zipWith max s t).set j
          (max ((List.zipWith max s t).getD j 0) r) := by
  induction s with
  | nil => intro t j r; simp
  | cons a s ih =>
    intro t j r
    cases t with
    | nil => simp
    | cons b t =>
      cases j with
      | zero =>
        simp only [List.getD_cons_zero, List.set_cons_zero, List.zipWith_cons_cons]
        rw [max_assoc]
      | succ j =>
        simp only [List.getD_cons_succ, List.set_cons_succ, List.zipWith_cons_cons]
        rw [ih]

theorem merge_insert_right (P x : Nat) (s t : List Nat) :
    mergeRegs s (insertHash P x t) = insertHash P x (mergeRegs s t) := by
  rw [insertHash_eq, insertHash_eq]
  simp only [mergeRegs]
  exact zip_max_set s t _ _

theorem zip_max_assoc (a : List Nat) :
    ∀ (b c : List Nat),
      List.zipWith max (List.zipWith max a b) c =
        List.zipWith max a (List.zipWith max b c) := by
  induction a with
  | nil => intro b c; simp
  | cons x a ih =>
    intro b c
    cases b with
    | nil => simp
    | cons y b =>
      cases c with
      | nil => simp
      | cons z c =>
        simp only [List.zipWith_cons_cons]
        rw [ih, max_assoc]

theorem zip_max_self (a : List Nat) : List.zipWith max a a = a := by
  induction a with
  | nil => rfl
  | cons x a ih => simp [List.zipWith_cons_cons, ih]

theorem zip_max_zero (a : List Nat) :
    List.zipWith max a (List.replicate a.length 0) = a := by
  induction a with
  | nil => rfl
  | cons x a ih => simp [List.zipWith_cons_cons, List.replicate, ih]

theorem merge_zero (P : Nat) (s : List Nat) (hs : s.length = 2 ^ P) :
    mergeRegs s (zeroRegs P) = s := by
  rw [mergeRegs, zeroRegs, ← hs]
  exact zip_max_zero s

theorem merge_insertAllFrom (P : Nat) (ys : List Nat) :
    ∀ (s t : List Nat),
      mergeRegs s (insertAllFrom P t ys) = insertAllFrom P (mergeRegs s t) ys := by
  induction ys with
  | nil => intro s t; rfl
  | cons y ys ih =>
    intro s t
    show mergeRegs s (insertAllFrom P (insertHash P y t) ys) = _
    rw [ih s (insertHash P y t), merge_insert_right]
    rfl

theorem insertHash_length (P x : Nat) (s : List Nat) :
    (insertHash P x s).length = s.length := by
  rw [insertHash_eq, List.length_set]

theorem insertAllFrom_length (P : Nat) (xs : List Nat) (s : List Nat) :
    (insertAllFrom P s xs).length = s.length := by
  induction xs generalizing s with
  | nil => rfl
  | cons x xs ih =>
    show (insertAllFrom P (insertHash P x s) xs).length = _
    rw [ih, insertHash_length]

/-- C6: for register stores of equal precision `P`, merge is commutative,
associative and idempotent, the zero store is an identity, and merging the
stores built from two insertion streams equals building one store from the
concatenated stream. -/
theorem C6_merge_algebra (P : Nat) (A B C : List Nat)
    (hA : A.length = 2 ^ P) (hB : B.length = 2 ^ P) (hC : C.length = 2 ^ P)
    (xs ys : List Nat) :
    mergeRegs A B = mergeRegs B A ∧
    mergeRegs (mergeRegs A B) C = mergeRegs A (mergeRegs B C) ∧
    mergeRegs A A = A ∧
    mergeRegs A (zeroRegs P) = A ∧
    mergeRegs (insertAll P xs) (insertAll P ys) = insertAll P (xs ++ ys) := by
  refine ⟨List.zipWith_comm_of_comm max max_comm A B, zip_max_assoc A B C,
    zip_max_self A, ?_, ?_⟩
  · exact merge_zero P A hA
  · show mergeRegs (insertAllFrom P (zeroRegs P) xs)
        (insertAllFrom P (zeroRegs P) ys)
        = insertAllFrom P (zeroRegs P) (xs ++ ys)
    rw [merge_insertAllFrom]
    have h1 : insertAllFrom P (zeroRegs P) (xs ++ ys)
        = insertAllFrom P (insertAllFrom P (zeroRegs P) xs) ys := by
      simp only [insertAllFrom, List.foldl_append]
    rw [h1]
    congr 1
    exact merge_zero P _
      (by rw [insertAllFrom_length, zeroRegs, List.length_replicate])

/-- Witness for C6 at `P = 4` with concrete stores and streams. -/
theorem C6_merge_algebra_witness :
    mergeRegs (insertAll 4 [1]) (insertAll 4 [2]) =
      mergeRegs (insertAll 4 [2]) (insertAll 4 [1]) ∧
    mergeRegs (mergeRegs (insertAll 4 [1]) (insertAll 4 [2])) (insertAll 4 [3]) =
      mergeRegs (insertAll 4 [1]) (mergeRegs (insertAll 4 [2]) (insertAll 4 [3])) ∧
    mergeRegs (insertAll 4 [1]) (insertAll 4 [1]) = insertAll 4 [1] ∧
    mergeRegs (insertAll 4 [1]) (zeroRegs 4) = insertAll 4 [1] ∧
    mergeRegs (insertAll 4 [7]) (insertAll 4 [8]) = insertAll 4 ([7] ++ [8]) :=
  C6_merge_algebra 4 (insertAll 4 [1]) (insertAll 4 [2]) (insertAll 4 [3])
    (by rw [insertAll, insertAllFrom_length, zeroRegs, List.length_replicate])
    (by rw [insertAll, insertAllFrom_length, zeroRegs, List.length_replicate])
    (by rw [insertAll, insertAllFrom_length, zeroRegs, List.length_replicate])
    [7] [8]

/-! ## Clear and estimate -/

/-- C9: after `clear` every register is `0`, and a subsequent `estimate`
returns exactly `0`: the linear-counting branch is taken with `Z = M` zero
registers, giving `M * ln(M/M) = 0 ≤ threshold` (the per-precision thresholds
are nonnegative), and the rounded public estimate is `0` as well.  This is
exact even in `f64`: `M / M` is exactly `1.0` and `ln(1.0) = 0.0`. -/
theorem C9_clear_estimate (P : Nat) (threshold : ℝ) (bias : ℝ → ℝ)
    (s : List Nat) (hs : s.length = 2 ^ P) (hT : 0 ≤ threshold) :
    (∀ v ∈ clearRegs s, v = 0) ∧
    estimateReal P threshold bias (clearRegs s) = 0 ∧
    estimatePub P threshold bias (clearRegs s) = 0 := by
  have hmem : ∀ v ∈ clearRegs s, v = 0 := by
    intro v hv
    rw [clearRegs] at hv
    exact List.eq_of_mem_replicate hv
  have hZ : (clearRegs s).count 0 = 2 ^ P := by
    rw [clearRegs, List.count_replicate_self, hs]
  have hlin : (2 : ℝ) ^ P *
      Real.log ((2 : ℝ) ^ P / (((clearRegs s).count 0 : ℕ) : ℝ)) = 0 := by
    rw [hZ]
    push_cast
    rw [div_self (by positivity), Real.log_one, mul_zero]
  have hest : estimateReal P threshold bias (clearRegs s) = 0 := by
    simp only [estimateReal]
    rw [if_pos]
    · exact hlin
    · refine ⟨?_, ?_⟩
      · rw [hZ]
        exact Nat.two_pow_pos P
      · rw [hlin]
        exact hT
  refine ⟨hmem, hest, ?_⟩
  rw [estimatePub, hest, round_zero]

/-- Witness for C9 at `P = 4` on a concrete store, with threshold `0` and the
trivial bias function. -/
theorem C9_clear_estimate_witness :
    (∀ v ∈ clearRegs (List.replicate 16 7), v = 0) ∧
    estimateReal 4 0 (fun _ => 0) (clearRegs (List.replicate 16 7)) = 0 ∧
    estimatePub 4 0 (fun _ => 0) (clearRegs (List.replicate 16 7)) = 0 :=
  C9_clear_estimate 4 0 (fun _ => 0) (List.replicate 16 7) (by rfl) le_rfl

/-! ## Codec round-trip failure at the unclamped edge register -/

/-- C1 (code bug): the claim requires `decode(encode(s)) = s` for every
reachable store, but the store reached by inserting a hash value below
`2^P` (here `x = 0` at `P = 4`) holds `rho = 65 - P = 61` in a register,
one more than the codec's 61-symbol alphabet (values `0..=60`) can represent;
`compress` silently clamps the encoded symbol (`sym.min(64 - PRECISION)`), so
the round-trip returns `60` where the store holds `61`. -/
theorem C1_roundtrip_failure :
    insertHash 4 0 (zeroRegs 4) = 61 :: List.replicate 15 0 ∧
    Reachable 4 (insertHash 4 0 (zeroRegs 4)) ∧
    (decompress 4 (zeroRegs 4) (compress 4 (insertHash 4 0 (zeroRegs 4)))).1 =
      (some (), 60 :: List.replicate 15 0) ∧
    (decompress 4 (zeroRegs 4) (compress 4 (insertHash 4 0 (zeroRegs 4)))).1 ≠
      (some (), insertHash 4 0 (zeroRegs 4)) := by
  have h : (decompress 4 (zeroRegs 4)
      (compress 4 (insertHash 4 0 (zeroRegs 4)))).1 =
      (some (), 60 :: List.replicate 15 0) := by
    set_option maxRecDepth 10000 in decide
  refine ⟨by decide, Reachable.insert 0 Reachable.zero, h, ?_⟩
  rw [h]
  decide

/-- C8 (code bug, same root cause as C1): both serialization round-trips
fail on the reachable summary holding the unclamped register value
`65 - P = 61` (here reached by inserting the hash value `3` at `P = 4`): the
codec cannot represent `61`, so text and binary deserialization both return
the different summary with `60` in that register. -/
theorem C8_serde_roundtrip_failure :
    Reachable 4 (insertHash 4 3 (zeroRegs 4)) ∧
    deserializeText 4 (serializeText 4 (insertHash 4 3 (zeroRegs 4))) ≠
      some (insertHash 4 3 (zeroRegs 4)) ∧
    deserializeBytes 4 (serializeBin 4 (insertHash 4 3 (zeroRegs 4))) ≠
      some (insertHash 4 3 (zeroRegs 4)) :=
  ⟨Reachable.insert 3 Reachable.zero,
    by set_option maxRecDepth 10000 in decide,
    by set_option maxRecDepth 10000 in decide⟩

/-! ## Truncation safety: the decoder is a sequential reader -/

theorem bytesToBits_length (data : List Nat) :
    (bytesToBits data).length = 8 * data.length := by
  induction data with
  | nil => rfl
  | cons d rest ih =>
    rw [bytesToBits, List.flatMap_cons, List.length_append, ← bytesToBits, ih]
    simp [byteToBits]
    omega

theorem bytesToBits_take (data : List Nat) (k : Nat) :
    bytesToBits (data.take k) = (bytesToBits data).take (8 * k) := by
  induction data generalizing k with
  | nil => simp [bytesToBits]
  | cons d rest ih =>
    cases k with
    | zero => simp [bytesToBits]
    | succ k =>
      have h1 : (d :: rest).take (k + 1) = d :: rest.take k := rfl
      rw [h1, bytesToBits, bytesToBits, List.flatMap_cons,
        List.flatMap_cons, ← bytesToBits, ← bytesToBits, ih]
      have h8 : 8 * (k + 1) = (byteToBits d).length + 8 * k := by
        simp [byteToBits]
        omega
      rw [h8, List.take_append]

theorem readBitsC_mono (bits : List Bool) :
    ∀ (n acc pos : Nat), pos ≤ (readBitsC bits n acc pos).2 := by
  intro n
  induction n with
  | zero => intro acc pos; exact le_rfl
  | succ n ih =>
    intro acc pos
    rcases h : bits.get? pos with _ | b
    · simp only [readBitsC, h]
      exact le_rfl
    · simp only [readBitsC, h]
      exact le_trans (Nat.le_succ pos) (ih _ _)

theorem readBitsC_bound (bits : List Bool) :
    ∀ (n acc pos : Nat), pos ≤ bits.length →
      (readBitsC bits n acc pos).2 ≤ bits.length := by
  intro n
  induction n with
  | zero => intro acc pos h; exact h
  | succ n ih =>
    intro acc pos h
    rcases hb : bits.get? pos with _ | b
    · simpa only [readBitsC, hb] using h
    · have hlt : pos < bits.length := (List.get?_eq_some.mp hb).1
      simp only [readBitsC, hb]
      exact ih _ _ hlt

theorem readBitsC_agree (bits : List Bool) (m : Nat) :
    ∀ (n acc pos : Nat), pos ≤ m →
      ((readBitsC bits n acc pos).2 ≤ m →
        readBitsC (bits.take m) n acc pos = readBitsC bits n acc pos) ∧
      (m < (readBitsC bits n acc pos).2 →
        (readBitsC (bits.take m) n acc pos).1 = none) := by
  intro n
  induction n with
  | zero =>
    intro acc pos hpos
    exact ⟨fun _ => rfl, fun h => absurd hpos (by simp only [readBitsC] at h; omega)⟩
  | succ n ih =>
    intro acc pos hpos
    rcases hb : bits.get? pos with _ | b
    · have hnone : (bits.take m).get? pos = none := by
        rw [List.get?_eq_none] at hb ⊢
        have := List.length_take m bits
        omega
      constructor
      · intro _
        simp only [readBitsC, hb, hnone]
      · intro h
        simp only [readBitsC, hb] at h
        omega
    · rcases Nat.lt_or_ge pos m with hm | hm
      · have hsome : (bits.take m).get? pos = bits.get? pos :=
          List.get?_take hm
        constructor
        · intro h
          simp only [readBitsC, hb, hsome]
          exact (ih _ _ (by omega)).1 (by simpa only [readBitsC, hb] using h)
        · intro h
          simp only [readBitsC, hb, hsome]
          exact (ih _ _ (by omega)).2 (by simpa only [readBitsC, hb] using h)
      · have hpm : pos = m := by omega
        have hnone : (bits.take m).get? pos = none := by
          rw [List.get?_eq_none]
          have := List.length_take m bits
          omega
        constructor
        · intro h
          exfalso
          have h1 : pos + 1 ≤ (readBitsC bits (n + 1) acc pos).2 := by
            simp only [readBitsC, hb]
            exact readBitsC_mono bits n _ (pos + 1)
          omega
        · intro _
          simp only [readBitsC, hnone]


theorem renormD_mono (bits : List Bool) :
    ∀ (fuel low high value pos : Nat),
      pos ≤ (renormD bits fuel low high value pos).2 := by
  intro fuel
  induction fuel with
  | zero => intro low high value pos; exact le_rfl
  | succ fuel ih =>
    intro low high value pos
    simp only [renormD]
    by_cases h1 : high < HALF
    · rw [if_pos h1]
      rcases hb : bits.get? pos with _ | b
      · exact le_rfl
      · exact le_trans (Nat.le_succ pos) (ih _ _ _ _)
    · rw [if_neg h1]
      by_cases h2 : HALF ≤ low
      · rw [if_pos h2]
        rcases hb : bits.get? pos with _ | b
        · exact le_rfl
        · exact le_trans (Nat.le_succ pos) (ih _ _ _ _)
      · rw [if_neg h2]
        by_cases h3 : QUART ≤ low ∧ high < 3 * QUART
        · rw [if_pos h3]
          rcases hb : bits.get? pos with _ | b
          · exact le_rfl
          · exact le_trans (Nat.le_succ pos) (ih _ _ _ _)
        · rw [if_neg h3]

theorem renormD_bound (bits : List Bool) :
    ∀ (fuel low high value pos : Nat), pos ≤ bits.length →
      (renormD bits fuel low high value pos).2 ≤ bits.length := by
  intro fuel
  induction fuel with
  | zero => intro low high value pos h; exact h
  | succ fuel ih =>
    intro low high value pos h
    simp only [renormD]
    by_cases h1 : high < HALF
    · rw [if_pos h1]
      rcases hb : bits.get? pos with _ | b
      · exact h
      · exact ih _ _ _ _ (List.get?_eq_some.mp hb).1
    · rw [if_neg h1]
      by_cases h2 : HALF ≤ low
      · rw [if_pos h2]
        rcases hb : bits.get? pos with _ | b
        · exact h
        · exact ih _ _ _ _ (List.get?_eq_some.mp hb).1
      · rw [if_neg h2]
        by_cases h3 : QUART ≤ low ∧ high < 3 * QUART
        · rw [if_pos h3]
          rcases hb : bits.get? pos with _ | b
          · exact h
          · exact ih _ _ _ _ (List.get?_eq_some.mp hb).1
        · rw [if_neg h3]
          exact h

theorem renormD_agree (bits : List Bool) (m : Nat) :
    ∀ (fuel low high value pos : Nat), pos ≤ m →
      ((renormD bits fuel low high value pos).2 ≤ m →
        renormD (bits.take m) fuel low high value pos =
          renormD bits fuel low high value pos) ∧
      (m < (renormD bits fuel low high value pos).2 →
        (renormD (bits.take m) fuel low high value pos).1 = none) := by
  intro fuel
  induction fuel with
  | zero =>
    intro low high value pos hpos
    exact ⟨fun _ => rfl, fun h => absurd hpos (by simp only [renormD] at h; omega)⟩
  | succ fuel ih =>
    intro low high value pos hpos
    simp only [renormD]
    by_cases h1 : high < HALF
    · rw [if_pos h1, if_pos h1]
      rcases hb : bits.get? pos with _ | b
      · have hnone : (bits.take m).get? pos = none := by
          rw [List.get?_eq_none] at hb ⊢
          have := List.length_take m bits
          omega
        rw [hnone]
        exact ⟨fun _ => rfl, fun _ => rfl⟩
      · rcases Nat.lt_or_ge pos m with hm | hm
        · rw [show (bits.take m).get? pos = some b from
            (List.get?_take hm).trans hb]
          exact ih _ _ _ _ (by omega)
        · have hnone : (bits.take m).get? pos = none := by
            rw [List.get?_eq_none]
            have := List.length_take m bits
            omega
          rw [hnone]
          refine ⟨fun h => ?_, fun _ => rfl⟩
          have h2 : (renormD bits fuel (2 * low) (2 * high + 1)
            (2 * value + cond b 1 0) (pos + 1)).2 ≤ m := h
          have h3 := renormD_mono bits fuel (2 * low) (2 * high + 1)
            (2 * value + cond b 1 0) (pos + 1)
          omega
    · rw [if_neg h1, if_neg h1]
      by_cases h2 : HALF ≤ low
      · rw [if_pos h2, if_pos h2]
        rcases hb : bits.get? pos with _ | b
        · have hnone : (bits.take m).get? pos = none := by
            rw [List.get?_eq_none] at hb ⊢
            have := List.length_take m bits
            omega
          rw [hnone]
          exact ⟨fun _ => rfl, fun _ => rfl⟩
        · rcases Nat.lt_or_ge pos m with hm | hm
          · rw [show (bits.take m).get? pos = some b from
              (List.get?_take hm).trans hb]
            exact ih _ _ _ _ (by omega)
          · have hnone : (bits.take m).get? pos = none := by
              rw [List.get?_eq_none]
              have := List.length_take m bits
              omega
            rw [hnone]
            refine ⟨fun h => ?_, fun _ => rfl⟩
            have h4 : (renormD bits fuel (2 * (low - HALF))
              (2 * (high - HALF) + 1) (2 * (value - HALF) + cond b 1 0)
              (pos + 1)).2 ≤ m := h
            have h5 := renormD_mono bits fuel (2 * (low - HALF))
              (2 * (high - HALF) + 1) (2 * (value - HALF) + cond b 1 0) (pos + 1)
            omega
      · rw [if_neg h2, if_neg h2]
        by_cases h3 : QUART ≤ low ∧ high < 3 * QUART
        · rw [if_pos h3, if_pos h3]
          rcases hb : bits.get? pos with _ | b
          · have hnone : (bits.take m).get? pos = none := by
              rw [List.get?_eq_none] at hb ⊢
              have := List.length_take m bits
              omega
            rw [hnone]
            exact ⟨fun _ => rfl, fun _ => rfl⟩
          · rcases Nat.lt_or_ge pos m with hm | hm
            · rw [show (bits.take m).get? pos = some b from
                (List.get?_take hm).trans hb]
              exact ih _ _ _ _ (by omega)
            · have hnone : (bits.take m).get? pos = none := by
                rw [List.get?_eq_none]
                have := List.length_take m bits
                omega
              rw [hnone]
              refine ⟨fun h => ?_, fun _ => rfl⟩
              have h4 : (renormD bits fuel (2 * (low - QUART))
                (2 * (high - QUART) + 1) (2 * (value - QUART) + cond b 1 0)
                (pos + 1)).2 ≤ m := h
              have h5 := renormD_mono bits fuel (2 * (low - QUART))
                (2 * (high - QUART) + 1) (2 * (value - QUART) + cond b 1 0)
                (pos + 1)
              omega
        · rw [if_neg h3, if_neg h3]
          refine ⟨fun _ => rfl, fun h => ?_⟩
          have h4 : m < pos := h
          omega

theorem renorm_match_mono (bits : List Bool) (a b value pos sym : Nat) :
    pos ≤ (match renormD bits 64 a b value pos with
      | (none, p) => ((none : Option (Nat × Nat × Nat × Nat)), p)
      | (some (l, h, v), p) => (some (sym, l, h, v), p)).2 := by
  rcases hE : renormD bits 64 a b value pos with ⟨o, p⟩
  have hm := renormD_mono bits 64 a b value pos
  rw [hE] at hm
  rcases o with _ | ⟨⟨l, h, v⟩⟩ <;> simpa using hm

theorem renorm_match_bound (bits : List Bool) (a b value pos sym : Nat)
    (h : pos ≤ bits.length) :
    (match renormD bits 64 a b value pos with
      | (none, p) => ((none : Option (Nat × Nat × Nat × Nat)), p)
      | (some (l, h, v), p) => (some (sym, l, h, v), p)).2 ≤ bits.length := by
  rcases hE : renormD bits 64 a b value pos with ⟨o, p⟩
  have hb := renormD_bound bits 64 a b value pos h
  rw [hE] at hb
  rcases o with _ | ⟨⟨l, h2, v⟩⟩ <;> simpa using hb

theorem renorm_match_agree (bits : List Bool) (m a b value pos sym : Nat)
    (hpos : pos ≤ m) :
    ((match renormD bits 64 a b value pos with
        | (none, p) => ((none : Option (Nat × Nat × Nat × Nat)), p)
        | (some (l, h, v), p) => (some (sym, l, h, v), p)).2 ≤ m →
      (match renormD (bits.take m) 64 a b value pos with
        | (none, p) => ((none : Option (Nat × Nat × Nat × Nat)), p)
        | (some (l, h, v), p) => (some (sym, l, h, v), p)) =
      (match renormD bits 64 a b value pos with
        | (none, p) => ((none : Option (Nat × Nat × Nat × Nat)), p)
        | (some (l, h, v), p) => (some (sym, l, h, v), p))) ∧
    (m < (match renormD bits 64 a b value pos with
        | (none, p) => ((none : Option (Nat × Nat × Nat × Nat)), p)
        | (some (l, h, v), p) => (some (sym, l, h, v), p)).2 →
      (match renormD (bits.take m) 64 a b value pos with
        | (none, p) => ((none : Option (Nat × Nat × Nat × Nat)), p)
        | (some (l, h, v), p) => (some (sym, l, h, v), p)).1 = none) := by
  have hag := renormD_agree bits m 64 a b value pos hpos
  rcases hfull : renormD bits 64 a b value pos with ⟨o, p⟩
  rw [hfull] at hag
  constructor
  · intro h
    have hp : p ≤ m := by
      rcases o with _ | ⟨⟨l, h2, v⟩⟩ <;> simpa using h
    rw [hag.1 hp]
  · intro h
    have hp : m < p := by
      rcases o with _ | ⟨⟨l, h2, v⟩⟩ <;> simpa using h
    have hn := hag.2 hp
    rcases htake : renormD (bits.take m) 64 a b value pos with ⟨o2, p2⟩
    rw [htake] at hn
    simp at hn
    subst hn
    rfl

theorem decodeSymC_mono (bits : List Bool) (freqs : List Nat)
    (low high value pos : Nat) :
    pos ≤ (decodeSymC bits freqs low high value pos).2 := by
  simp only [decodeSymC]
  exact renorm_match_mono bits _ _ value pos _

theorem decodeSymC_bound (bits : List Bool) (freqs : List Nat)
    (low high value pos : Nat) (h : pos ≤ bits.length) :
    (decodeSymC bits freqs low high value pos).2 ≤ bits.length := by
  simp only [decodeSymC]
  exact renorm_match_bound bits _ _ value pos _ h

theorem decodeSymC_agree (bits : List Bool) (m : Nat) (freqs : List Nat)
    (low high value pos : Nat) (hpos : pos ≤ m) :
    ((decodeSymC bits freqs low high value pos).2 ≤ m →
      decodeSymC (bits.take m) freqs low high value pos =
        decodeSymC bits freqs low high value pos) ∧
    (m < (decodeSymC bits freqs low high value pos).2 →
      (decodeSymC (bits.take m) freqs low high value pos).1 = none) := by
  simp only [decodeSymC]
  exact renorm_match_agree bits m _ _ value pos _ hpos

theorem decLoop_mono (bits : List Bool) :
    ∀ (regs freqs : List Nat) (low high value pos : Nat) (acc : List Nat),
      pos ≤ (decLoop bits freqs low high value pos regs acc).2 := by
  intro regs
  induction regs with
  | nil => intro freqs low high value pos acc; exact le_rfl
  | cons r rest ih =>
    intro freqs low high value pos acc
    simp only [decLoop]
    rcases hE : decodeSymC bits freqs low high value pos with ⟨o, p⟩
    have hm := decodeSymC_mono bits freqs low high value pos
    rw [hE] at hm
    rcases o with _ | ⟨⟨sym, l, h, v⟩⟩
    · simpa using hm
    · exact le_trans hm (ih _ _ _ _ _ _)

theorem decLoop_bound (bits : List Bool) :
    ∀ (regs freqs : List Nat) (low high value pos : Nat) (acc : List Nat),
      pos ≤ bits.length →
      (decLoop bits freqs low high value pos regs acc).2 ≤ bits.length := by
  intro regs
  induction regs with
  | nil => intro freqs low high value pos acc h; exact h
  | cons r rest ih =>
    intro freqs low high value pos acc h
    simp only [decLoop]
    rcases hE : decodeSymC bits freqs low high value pos with ⟨o, p⟩
    have hb := decodeSymC_bound bits freqs low high value pos h
    rw [hE] at hb
    rcases o with _ | ⟨⟨sym, l, h2, v⟩⟩
    · simpa using hb
    · exact ih _ _ _ _ _ _ hb

theorem decLoop_agree (bits : List Bool) (m : Nat) :
    ∀ (regs freqs : List Nat) (low high value pos : Nat) (acc : List Nat),
      pos ≤ m →
      ((decLoop bits freqs low high value pos regs acc).2 ≤ m →
        decLoop (bits.take m) freqs low high value pos regs acc =
          decLoop bits freqs low high value pos regs acc) ∧
      (m < (decLoop bits freqs low high value pos regs acc).2 →
        (decLoop (bits.take m) freqs low high value pos regs acc).1.1 =
          none) := by
  intro regs
  induction regs with
  | nil =>
    intro freqs low high value pos acc hpos
    refine ⟨fun _ => rfl, fun h => ?_⟩
    have h2 : m < pos := h
    omega
  | cons r rest ih =>
    intro freqs low high value pos acc hpos
    simp only [decLoop]
    rcases hE : decodeSymC bits freqs low high value pos with ⟨o, p⟩
    have hm := decodeSymC_mono bits freqs low high value pos
    rw [hE] at hm
    have hag := decodeSymC_agree bits m freqs low high value pos hpos
    rw [hE] at hag
    rcases o with _ | ⟨⟨sym, l, h2, v⟩⟩
    · constructor
      · intro h
        have hp : p ≤ m := h
        rw [hag.1 hp]
      · intro h
        have hp : m < p := h
        have hn := hag.2 hp
        rcases htake : decodeSymC (bits.take m) freqs low high value pos
          with ⟨o2, p2⟩
        rw [htake] at hn
        simp at hn
        subst hn
        rfl
    · rcases Nat.lt_or_ge m p with hp | hp
      · have hn := hag.2 hp
        rcases htake : decodeSymC (bits.take m) freqs low high value pos
          with ⟨o2, p2⟩
        rw [htake] at hn
        simp at hn
        subst hn
        constructor
        · intro h
          exfalso
          have h3 : (decLoop bits (updateModel freqs sym) l h2 v p rest
            (sym % 256 :: acc)).2 ≤ m := h
          have h4 := decLoop_mono bits rest (updateModel freqs sym) l h2 v p
            (sym % 256 :: acc)
          omega
        · intro _
          rfl
      · have heq := hag.1 (by simpa using hp)
        rw [heq]
        exact ih (updateModel freqs sym) l h2 v p (sym % 256 :: acc) hp

theorem decompress_agree (P : Nat) (regs data : List Nat) (k : Nat) :
    ((decompress P regs data).2 ≤ 8 * k →
      decompress P regs (data.take k) = decompress P regs data) ∧
    (8 * k < (decompress P regs data).2 →
      (decompress P regs (data.take k)).1.1 = none) := by
  simp only [decompress, bytesToBits_take]
  rcases hE : readBitsC (bytesToBits data) 48 0 0 with ⟨o, p⟩
  have hag := readBitsC_agree (bytesToBits data) (8 * k) 48 0 0 (Nat.zero_le _)
  rw [hE] at hag
  rcases o with _ | v
  · constructor
    · intro h
      have hp : p ≤ 8 * k := h
      rw [hag.1 hp]
    · intro h
      have hp : 8 * k < p := h
      have hn := hag.2 hp
      rcases htake : readBitsC ((bytesToBits data).take (8 * k)) 48 0 0
        with ⟨o2, p2⟩
      rw [htake] at hn
      simp at hn
      subst hn
      rfl
  · rcases Nat.lt_or_ge (8 * k) p with hp | hp
    · have hn := hag.2 hp
      rcases htake : readBitsC ((bytesToBits data).take (8 * k)) 48 0 0
        with ⟨o2, p2⟩
      rw [htake] at hn
      simp at hn
      subst hn
      constructor
      · intro h
        exfalso
        have h3 : (decLoop (bytesToBits data)
          (initModel (compression_symbols P)) 0 (WHOLE - 1) v p regs []).2
            ≤ 8 * k := h
        have h4 := decLoop_mono (bytesToBits data) regs
          (initModel (compression_symbols P)) 0 (WHOLE - 1) v p []
        omega
      · intro _
        rfl
    · have heq := hag.1 (by simpa using hp)
      rw [heq]
      exact decLoop_agree (bytesToBits data) (8 * k) regs
        (initModel (compression_symbols P)) 0 (WHOLE - 1) v p [] hp

theorem decompress_bound (P : Nat) (regs data : List Nat) :
    (decompress P regs data).2 ≤ 8 * data.length := by
  rw [← bytesToBits_length]
  simp only [decompress]
  rcases hE : readBitsC (bytesToBits data) 48 0 0 with ⟨o, p⟩
  have hb := readBitsC_bound (bytesToBits data) 48 0 0 (Nat.zero_le _)
  rw [hE] at hb
  rcases o with _ | v
  · simpa using hb
  · exact decLoop_bound (bytesToBits data) regs
      (initModel (compression_symbols P)) 0 (WHOLE - 1) v p [] hb

/-- C5: the decoder is a sequential reader of the payload: it never consumes
more bits than the payload holds (no out-of-bounds access), and whenever a
payload is truncated to fewer bytes than the decoder needs to produce all `M`
symbols — that is, the truncation cuts below the bit position the full decode
reaches — `decompress` returns `Err` (the crate's `UnexpectedEndOfInput`),
never a silently different successful result; truncating a payload that
already fails also fails. -/
theorem C5_truncation_safety (P : Nat) (regs data : List Nat) (k : Nat) :
    (decompress P regs data).2 ≤ 8 * data.length ∧
    (8 * k < (decompress P regs data).2 →
      (decompress P regs (data.take k)).1.1 = none) ∧
    ((decompress P regs data).1.1 = none →
      (decompress P regs (data.take k)).1.1 = none) := by
  refine ⟨decompress_bound P regs data, (decompress_agree P regs data k).2, ?_⟩
  intro h
  rcases Nat.lt_or_ge (8 * k) (decompress P regs data).2 with hp | hp
  · exact (decompress_agree P regs data k).2 hp
  · rw [(decompress_agree P regs data k).1 hp]
    exact h

/-- Witness for C5: a seven-byte payload at `P = 4` consumes 56 bits in the
full run; truncating it to one byte makes `decompress` fail. -/
theorem C5_truncation_safety_witness :
    (decompress 4 (List.replicate 16 9) (List.replicate 7 255)).2 ≤
      8 * (List.replicate 7 255).length ∧
    (decompress 4 (List.replicate 16 9)
      ((List.replicate 7 255).take 1)).1.1 = none :=
  ⟨(C5_truncation_safety 4 (List.replicate 16 9) (List.replicate 7 255) 1).1,
    (C5_truncation_safety 4 (List.replicate 16 9) (List.replicate 7 255) 1).2.1
      (by decide)⟩

/-- The decoding loop writes the decoded symbols over a prefix of the
registers and leaves the rest untouched; the decoded prefix does not depend
on the register contents (stated by running the same loop on two register
lists of equal length). -/
theorem decLoop_pair (bits : List Bool) :
    ∀ (regs regs2 : List Nat), regs.length = regs2.length →
      ∀ (freqs : List Nat) (low high value pos : Nat) (acc : List Nat),
      ∃ ds res fp, ds.length ≤ regs.length ∧
        decLoop bits freqs low high value pos regs acc =
          ((res, acc.reverse ++ ds ++ regs.drop ds.length), fp) ∧
        decLoop bits freqs low high value pos regs2 acc =
          ((res, acc.reverse ++ ds ++ regs2.drop ds.length), fp) ∧
        (res = some () ↔ ds.length = regs.length) := by
  intro regs
  induction regs with
  | nil =>
    intro regs2 hlen freqs low high value pos acc
    have h2 : regs2 = [] := List.eq_nil_of_length_eq_zero hlen.symm
    subst h2
    exact ⟨[], some (), pos, by simp, by simp [decLoop], by simp [decLoop],
      by simp⟩
  | cons r rest ih =>
    intro regs2 hlen freqs low high value pos acc
    rcases regs2 with _ | ⟨r2, rest2⟩
    · simp at hlen
    · simp only [decLoop]
      rcases hE : decodeSymC bits freqs low high value pos with ⟨o, p⟩
      rcases o with _ | ⟨⟨sym, l, h, v⟩⟩
      · refine ⟨[], none, p, by simp, by simp, by simp, by simp⟩
      · obtain ⟨ds, res, fp, hb, he1, he2, hiff⟩ :=
          ih rest2 (by simpa using hlen) (updateModel freqs sym) l h v p
            (sym % 256 :: acc)
        refine ⟨sym % 256 :: ds, res, fp, by simpa using hb,
          he1.trans (by simp), he2.trans (by simp), by simpa using hiff⟩

/-- C10: when `decompress` fails it is not atomic: the registers reached
before the failure have been overwritten with the decoded symbols (the same
values a decode into a fresh store would produce) while the registers at and
beyond the failure index keep their prior values; and there is a concrete
store and payload for which `decompress` returns `Err` with the store
modified. -/
theorem C10_decompress_partial :
    (∀ (P : Nat) (regs data : List Nat), regs.length = 2 ^ P →
      (decompress P regs data).1.1 = none →
      ∃ k, k < regs.length ∧
        (decompress P regs data).1.2 =
          (decompress P (zeroRegs P) data).1.2.take k ++ regs.drop k) ∧
    ((decompress 4 (List.replicate 16 9) (List.replicate 7 255)).1.1 =
        none ∧
      (decompress 4 (List.replicate 16 9) (List.replicate 7 255)).1.2 ≠
        List.replicate 16 9) := by
  constructor
  · intro P regs data hlen herr
    simp only [decompress] at herr ⊢
    rcases hE : readBitsC (bytesToBits data) 48 0 0 with ⟨o, p⟩
    rcases o with _ | v
    · refine ⟨0, ?_, by simp⟩
      rw [hlen]
      exact Nat.two_pow_pos P
    · rw [hE] at herr
      have herr2 : (decLoop (bytesToBits data)
          (initModel (compression_symbols P)) 0 (WHOLE - 1) v p regs
          []).1.1 = none := herr
      obtain ⟨ds, res, fp, hb, he1, he2, hiff⟩ :=
        decLoop_pair (bytesToBits data) regs (zeroRegs P)
          (by rw [hlen, zeroRegs, List.length_replicate])
          (initModel (compression_symbols P)) 0 (WHOLE - 1) v p []
      rw [he1] at herr2
      have hres : res = none := by simpa using herr2
      subst hres
      have hlt : ds.length < regs.length := by
        rcases Nat.lt_or_ge ds.length regs.length with h | h
        · exact h
        · exfalso
          have h2 : ds.length = regs.length := le_antisymm hb h
          exact Option.noConfusion (hiff.mpr h2)
      show ∃ k, k < regs.length ∧
        (decLoop (bytesToBits data) (initModel (compression_symbols P)) 0
          (WHOLE - 1) v p regs []).1.2 =
        ((decLoop (bytesToBits data) (initModel (compression_symbols P)) 0
          (WHOLE - 1) v p (zeroRegs P) []).1.2).take k ++
          regs.drop k
      refine ⟨ds.length, hlt, ?_⟩
      rw [he1, he2]
      have htake : (ds ++ (zeroRegs P).drop ds.length).take ds.length = ds :=
        List.take_left' rfl
      simp [htake]
  · refine ⟨by set_option maxRecDepth 10000 in decide,
      by set_option maxRecDepth 10000 in decide⟩

/-- Witness for the universal part of C10 at the concrete failing payload. -/
theorem C10_decompress_partial_witness :
    ∃ k, k < (List.replicate 16 9 : List Nat).length ∧
      (decompress 4 (List.replicate 16 9) (List.replicate 7 255)).1.2 =
        (decompress 4 (zeroRegs 4) (List.replicate 7 255)).1.2.take k ++
          (List.replicate 16 9 : List Nat).drop k :=
  C10_decompress_partial.1 4 (List.replicate 16 9) (List.replicate 7 255)
    (by decide) (by set_option maxRecDepth 10000 in decide)
